import Mathlib

/-!
Verification of the VRStack installer core (install.py): the component
registry, the dependency resolver, selection construction at the CLI entry
points, the installation orchestration loop, and the driver-level error
handling are embedded as executable Lean definitions and their specified
properties are proved or refuted below.
-/

namespace VRStack

/-- Status enumeration mirroring ComponentStatus in install.py. -/
inductive ComponentStatus where
  | NOT_INSTALLED
  | INSTALLED
  | UPDATE_AVAILABLE
  | FAILED
deriving DecidableEq, Repr

/-- Immutable component definition record mirroring the dataclass fields of
Component in install.py (the per-component methods are modelled separately). -/
structure Component where
  name : String
  description : String
  category : String
  required : Bool := false
  dependencies : List String := []
  conflicts : List String := []
deriving DecidableEq, Repr

/-- The static registry ALL_COMPONENTS of install.py, with the name, category,
required flag and dependency list of each of the seven registered components,
in registration order. -/
def ALL_COMPONENTS : List Component := [
  { name := "xrlinuxdriver",
    description := "Core driver for AR glasses (IMU, display detection)",
    category := "core", required := true, dependencies := [] },
  { name := "breezy-desktop",
    description := "Virtual desktop environment for AR glasses",
    category := "core", required := true, dependencies := ["xrlinuxdriver"] },
  { name := "monado",
    description := "Open source OpenXR runtime (required for VR games)",
    category := "core", dependencies := ["xrlinuxdriver"] },
  { name := "opentrack",
    description := "Head tracking with webcam AI (NeuralNet tracker built-in)",
    category := "tracking", dependencies := [] },
  { name := "stardust-xr",
    description := "3D desktop with floating windows, skyboxes, and XR widgets",
    category := "desktop", dependencies := ["monado"] },
  { name := "vrto3d",
    description := "OpenVR driver for SBS 3D output (play VR games on AR glasses)",
    category := "gaming", dependencies := ["xrlinuxdriver"] },
  { name := "depth3d",
    description := "ReShade + SuperDepth3D shader for 3D in regular games",
    category := "gaming", dependencies := ["xrlinuxdriver"] }
]

/-- Lookup in an arbitrary registry: the first component whose name matches,
exactly as get_component in install.py scans ALL_COMPONENTS in order. -/
def get_component_in (reg : List Component) (name : String) : Option Component :=
  reg.find? (fun c => c.name == name)

/-- get_component of install.py: first-match lookup in ALL_COMPONENTS. -/
def get_component (name : String) : Option Component :=
  get_component_in ALL_COMPONENTS name

/-- Dependency list attached to a name: the dependencies of the first matching
registered component, or empty when the name is not registered (the resolver
never dereferences dependencies of unregistered names). -/
def depsOf (reg : List Component) (name : String) : List String :=
  match get_component_in reg name with
  | some c => c.dependencies
  | none => []

/-- Dependency edge of the registry graph: a depends directly on b. -/
def depEdge (reg : List Component) (a b : String) : Prop :=
  b ∈ depsOf reg a

/-- Mutable state of resolve_dependencies in install.py: the visited set and
the accumulated result list (the visited set is kept as a list, used only
through membership). -/
structure ResolveState where
  visited : List String
  result : List String
deriving DecidableEq, Repr

/-- One visit(name) call of resolve_dependencies in install.py, with explicit
recursion fuel standing in for the unbounded Python call stack (the fuel-out
branch returns none; resolve_dependencies_in below always runs with provably
sufficient fuel).  The name is marked visited before its dependencies are
traversed; an unregistered name contributes nothing to the result; a
registered name is appended after its dependencies have been resolved. -/
def visitF (reg : List Component) : Nat → String → ResolveState → Option ResolveState
  | 0, _, _ => none
  | fuel + 1, name, st =>
    if name ∈ st.visited then some st
    else
      let st1 : ResolveState := { visited := name :: st.visited, result := st.result }
      match get_component_in reg name with
      | none => some st1
      | some c =>
        (c.dependencies.foldlM (fun s d => visitF reg fuel d s) st1).map
          (fun st2 => { visited := st2.visited, result := st2.result ++ [name] })

/-- Number of distinct registered names; one more than this is always enough
fuel for visitF, because every level of recursion below the first inserts a
fresh registered name into the visited set. -/
def numNames (reg : List Component) : Nat :=
  ((reg.map (fun c => c.name)).dedup).length

/-- The toplevel loop of resolve_dependencies: visit every selected name, in
the order supplied by the caller, starting from an empty state. -/
def resolveFuel (reg : List Component) (fuel : Nat) (selected : List String) :
    Option ResolveState :=
  selected.foldlM (fun st n => visitF reg fuel n st) { visited := [], result := [] }

/-- resolve_dependencies of install.py generalized to an explicit registry:
depth-first expansion with a visited guard, returning the ordered result list. -/
def resolve_dependencies_in (reg : List Component) (selected : List String) :
    List String :=
  match resolveFuel reg (numNames reg + 1) selected with
  | some st => st.result
  | none => []

/-- resolve_dependencies of install.py over the concrete registry. -/
def resolve_dependencies (selected : List String) : List String :=
  resolve_dependencies_in ALL_COMPONENTS selected

/-- Names of the components marked required, in registration order, as
collected by the minimal entry point of main in install.py. -/
def required_names : List String :=
  (ALL_COMPONENTS.filter (fun c => c.required)).map (fun c => c.name)

/-- Names of all registered components, in registration order, as collected by
the full entry point of main in install.py. -/
def all_names : List String :=
  ALL_COMPONENTS.map (fun c => c.name)

/-- The optional components, in registration order, as enumerated by the
interactive menu of install.py. -/
def optional_components : List Component :=
  ALL_COMPONENTS.filter (fun c => !c.required)

/-- Interpretation of one whitespace token of the interactive selection line
of install.py: an all-digits token is a 1-based index into the optional
components (out-of-range numbers are dropped silently), any other token is a
component name kept only when it is registered. -/
def select_item (item : String) : Option String :=
  if item.all Char.isDigit && item != "" then
    match (item.toNat?).getD 0 with
    | 0 => none
    | n + 1 => (optional_components[n]?).map (fun c => c.name)
  else if (get_component item).isSome then some item else none

/-- Selection produced by interactive_select in install.py as a function of the
stripped input line.  The selection starts from the required components; the
answer "all" replaces it with every registered name; otherwise each whitespace
token adds a component via select_item.  Python returns list(set(selected)),
whose iteration order is unspecified; that final set conversion is modelled by
List.dedup, which is faithful up to ordering (only membership in the returned
selection is consumed). -/
def interactive_select (choice : String) : List String :=
  if choice.toLower = "all" then all_names.dedup
  else if choice = "" then required_names.dedup
  else
    (required_names ++
      (((choice.split Char.isWhitespace).filter (fun s => s != "")).filterMap
        select_item)).dedup

/-- The CLI flags of install.py that choose what an install run covers
(--list and --uninstall exit before any selection is built and are out of
scope here);  components is none when the flag is absent and holds the
user-supplied names otherwise. -/
structure CliArgs where
  minimal : Bool
  full : Bool
  components : Option (List String)

/-- Selection construction in main of install.py: --minimal takes exactly the
required components, --full every registered component, --components the
literal user-supplied list (an empty list is falsy in Python and falls through
to the interactive path, though argparse never produces one), and otherwise
the interactive selection for the given input line. -/
def determine_selection (args : CliArgs) (choice : String) : List String :=
  if args.minimal then required_names
  else if args.full then all_names
  else
    match args.components with
    | some (c :: cs) => c :: cs
    | _ => interactive_select choice

/-- Outcome of one plan element in the run_installation loop of install.py. -/
inductive StepOutcome where
  | skipped
  | succeeded
  | failed
deriving DecidableEq, Repr

/-- One iteration of the run_installation loop for a component name: a
component whose status check reports INSTALLED is skipped; otherwise install
runs, where some true is a successful return, some false a failure return,
and none an exception caught by the surrounding try/except.  The configure
call after a successful install is omitted because every component inherits
the base configure, which returns True without side effects, and its return
value is discarded by the loop anyway. -/
def install_step (check : String → ComponentStatus) (inst : String → Option Bool)
    (name : String) : StepOutcome :=
  if check name = ComponentStatus.INSTALLED then StepOutcome.skipped
  else
    match inst name with
    | some true => StepOutcome.succeeded
    | some false => StepOutcome.failed
    | none => StepOutcome.failed

/-- The run_installation loop of install.py over the ordered plan: the success
flag starts true and is cleared whenever an install returns False or raises;
the loop never exits early.  check and inst receive the position in the plan
first, so that the modelled system state may differ from step to step (an
earlier install may create the artifacts a later status check probes). -/
def run_install_loop (check : Nat → String → ComponentStatus)
    (inst : Nat → String → Option Bool) : Nat → Bool → List String → Bool
  | _, ok, [] => ok
  | i, ok, name :: rest =>
    match install_step (check i) (inst i) name with
    | StepOutcome.failed => run_install_loop check inst (i + 1) false rest
    | _ => run_install_loop check inst (i + 1) ok rest

/-- Per-element outcome trace of the run_installation loop, pairing each plan
element with what the loop does to it. -/
def run_outcomes (check : Nat → String → ComponentStatus)
    (inst : Nat → String → Option Bool) : Nat → List String → List (String × StepOutcome)
  | _, [] => []
  | i, name :: rest =>
    (name, install_step (check i) (inst i) name) :: run_outcomes check inst (i + 1) rest

/-- Positions and names at which the run_installation loop invokes install:
exactly the plan elements whose status check does not report INSTALLED at the
moment the loop reaches them. -/
def run_calls (check : Nat → String → ComponentStatus) : Nat → List String → List (Nat × String)
  | _, [] => []
  | i, name :: rest =>
    if check i name = ComponentStatus.INSTALLED then run_calls check (i + 1) rest
    else (i, name) :: run_calls check (i + 1) rest

/-- run_installation of install.py after the confirmation prompt: resolve the
selection and execute the loop with the success flag initially true. -/
def run_installation_exec (check : Nat → String → ComponentStatus)
    (inst : Nat → String → Option Bool) (components : List String) : Bool :=
  run_install_loop check inst 0 true (resolve_dependencies components)

/-- Filesystem oracle for the uninstall path of XRLinuxDriverComponent in
install.py: existence and directory probes, and removal operations that either
succeed or raise an OSError carried as an Except error (shutil.rmtree is called
without ignore_errors and Path.unlink without missing_ok there). -/
structure Fs where
  pathExists : String → Bool
  isDir : String → Bool
  rmtree : String → Except String Unit
  unlink : String → Except String Unit

/-- The three artifact paths XRLinuxDriverComponent.uninstall iterates over. -/
def xr_uninstall_paths : List String :=
  ["~/.local/bin/xr_driver_cli", "~/.local/share/xr_driver", "~/.config/xr_driver"]

/-- Body of the loop of XRLinuxDriverComponent.uninstall for one path: remove
the path when it exists, choosing rmtree for directories and unlink otherwise;
there is no exception handler, so a raised error propagates. -/
def remove_path (fs : Fs) (p : String) : Except String Unit :=
  if fs.pathExists p then
    if fs.isDir p then fs.rmtree p else fs.unlink p
  else Except.ok ()

/-- XRLinuxDriverComponent.uninstall of install.py: remove each artifact path
in order and return True; the method contains no try/except, so any error
raised by a removal propagates to the caller instead of becoming False. -/
def xrlinuxdriver_uninstall (fs : Fs) : Except String Bool :=
  (xr_uninstall_paths.forM (fun p => remove_path fs p)).map (fun _ => true)

/-- Error raised by the run helper of install.py: with check=True a failing
command raises subprocess.CalledProcessError; any other exception class an
underlying call may raise is collected as otherErr. -/
inductive RunErr where
  | calledProcess (msg : String)
  | otherErr (msg : String)
deriving DecidableEq, Repr

/-- The three shell commands XRLinuxDriverComponent.install runs in order. -/
def xr_install_cmds : List String :=
  ["curl -Lo /tmp/xr_driver_setup.sh https://github.com/wheaney/XRLinuxDriver/releases/latest/download/xr_driver_setup.sh",
   "chmod +x /tmp/xr_driver_setup.sh",
   "/tmp/xr_driver_setup.sh"]

/-- XRLinuxDriverComponent.install of install.py: run the three setup commands
inside one try block whose except clause catches exactly
subprocess.CalledProcessError and converts it to False; an exception of any
other class is not caught and propagates. -/
def xrlinuxdriver_install (runner : String → Except RunErr Unit) : Except RunErr Bool :=
  match xr_install_cmds.forM runner with
  | Except.ok _ => Except.ok true
  | Except.error (RunErr.calledProcess _) => Except.ok false
  | Except.error e => Except.error e

/-- Decidable statement that every element of l has each of its declared
dependencies either in the set P or among the elements occurring earlier in l;
acc accumulates the elements already passed (only its membership matters). -/
def deps_ordered_from (reg : List Component) (P acc : List String) : List String → Bool
  | [] => true
  | n :: rest =>
    (depsOf reg n).all (fun d => decide (d ∈ P) || decide (d ∈ acc)) &&
      deps_ordered_from reg P (n :: acc) rest

/-- Decidable statement that every declared dependency of every element of l
occurs strictly earlier in l than that element. -/
def deps_ordered (reg : List Component) (l : List String) : Bool :=
  deps_ordered_from reg [] [] l

/-- Well-formed registry: every declared dependency name of every registered
component is itself registered. -/
def WfRegistry (reg : List Component) : Prop :=
  ∀ c ∈ reg, ∀ d ∈ c.dependencies, (get_component_in reg d).isSome

/-- Acyclic registry: no name depends transitively on itself. -/
def AcyclicRegistry (reg : List Component) : Prop :=
  ∀ n, ¬ Relation.TransGen (depEdge reg) n n

/-- Decidable sufficient condition for acyclicity: a rank function under which
every dependency edge strictly decreases. -/
def rank_ok (reg : List Component) (rank : String → Nat) : Bool :=
  reg.all (fun c => c.dependencies.all (fun d => rank d < rank c.name))

/-- Rank function witnessing that the dependency graph of ALL_COMPONENTS is
acyclic. -/
def vr_rank : String → Nat := fun n =>
  if n = "xrlinuxdriver" then 0
  else if n = "stardust-xr" then 2
  else 1

/-- Number of unvisited distinct registered names; the recursion measure of
the visited-set guard of resolve_dependencies. -/
def unvisitedCount (reg : List Component) (st : ResolveState) : Nat :=
  (((reg.map (fun c => c.name)).dedup).filter (fun n => decide (n ∉ st.visited))).length

/-- One-component registry used by the spec's ghost example: A is registered
and dependency-free. -/
def ghost_registry : List Component :=
  [{ name := "A", description := "dependency-free component", category := "core" }]

/-- Registry with a self-referencing component and a mutually cyclic pair,
used to exercise the visited guard of the resolver on malformed data. -/
def cyclic_registry : List Component := [
  { name := "a", description := "depends on itself", category := "core",
    dependencies := ["a"] },
  { name := "b", description := "depends on c", category := "core",
    dependencies := ["c"] },
  { name := "c", description := "depends on b", category := "core",
    dependencies := ["b"] }
]

/-- Registry exhibiting both configuration errors the spec says are fatal:
two components sharing a name and a dependency on an unregistered name. -/
def dup_registry : List Component := [
  { name := "x", description := "first of two with the same name",
    category := "core", dependencies := ["ghost"] },
  { name := "x", description := "second of two with the same name",
    category := "core" }
]

/-- Filesystem oracle on which every removal fails with a permission error,
as rmtree or unlink do on a file the user cannot delete. -/
def fs_denied : Fs :=
  { pathExists := fun _ => true, isDir := fun _ => true,
    rmtree := fun _ => Except.error "PermissionError",
    unlink := fun _ => Except.error "PermissionError" }

/-- Everything one completed visitF call guarantees about its state change:
the visited set only grows and ends up holding the seed; the result list is
extended by a duplicate-free block of previously unvisited registered names,
each the seed itself or a transitive dependency of the seed; and every name
newly visited during the call that is registered has been appended. -/
structure VisitSound (reg : List Component) (seed : String) (st st' : ResolveState) : Prop where
  vis_mono : ∀ x ∈ st.visited, x ∈ st'.visited
  seed_vis : seed ∈ st'.visited
  result_ext : ∃ delta, st'.result = st.result ++ delta ∧ delta.Nodup ∧
    ∀ x ∈ delta, x ∉ st.visited ∧ x ∈ st'.visited ∧
      (get_component_in reg x).isSome ∧
      (x = seed ∨ Relation.TransGen (depEdge reg) seed x)
  vis_resolved : ∀ x ∈ st'.visited, x ∈ st.visited ∨
    ((get_component_in reg x).isSome → x ∈ st'.result)

/-- The analogue of VisitSound for a left fold of visitF over a list of seeds. -/
structure FoldSound (reg : List Component) (seeds : List String) (st st' : ResolveState) : Prop where
  vis_mono : ∀ x ∈ st.visited, x ∈ st'.visited
  seeds_vis : ∀ d ∈ seeds, d ∈ st'.visited
  result_ext : ∃ delta, st'.result = st.result ++ delta ∧ delta.Nodup ∧
    ∀ x ∈ delta, x ∉ st.visited ∧ x ∈ st'.visited ∧
      (get_component_in reg x).isSome ∧
      (∃ d ∈ seeds, x = d ∨ Relation.TransGen (depEdge reg) d x)
  vis_resolved : ∀ x ∈ st'.visited, x ∈ st.visited ∨
    ((get_component_in reg x).isSome → x ∈ st'.result)

/-- Invariant carried through the resolver run for the ordering proof: P is
the set of names whose visit is on the call stack (marked visited, append
pending).  Every visited registered name is resolved or pending; the result is
duplicate-free, contained in the visited set, and ordered up to pending
names; pending names are visited. -/
structure ResolveInv (reg : List Component) (P : List String) (st : ResolveState) : Prop where
  vis_resolved : ∀ n ∈ st.visited, (get_component_in reg n).isSome → n ∈ st.result ∨ n ∈ P
  res_vis : ∀ n ∈ st.result, n ∈ st.visited
  res_nodup : st.result.Nodup
  res_ordered : deps_ordered_from reg P [] st.result = true
  pend_vis : ∀ p ∈ P, p ∈ st.visited

/-- Status oracle used to exercise the orchestrator loop concretely: only
xrlinuxdriver reports INSTALLED. -/
def demo_check : Nat → String → ComponentStatus :=
  fun _ n =>
    if n = "xrlinuxdriver" then ComponentStatus.INSTALLED else ComponentStatus.NOT_INSTALLED

/-- Install oracle on which every install returns True. -/
def demo_inst : Nat → String → Option Bool :=
  fun _ _ => some true

/-- Install oracle on which opentrack's install returns False and every other
install returns True. -/
def demo_inst_fail : Nat → String → Option Bool :=
  fun _ n => if n = "opentrack" then some false else some true

/-- Command runner on which every command succeeds. -/
def runner_all_ok : String → Except RunErr Unit :=
  fun _ => Except.ok ()

/-! Helper lemmas about lookup, filtering and the ordering predicate. -/

theorem get_component_in_spec {reg : List Component} {name : String} {c : Component}
    (h : get_component_in reg name = some c) : c ∈ reg ∧ c.name = name := by
  unfold get_component_in at h
  have h1 := List.find?_some h
  simp only [beq_iff_eq] at h1
  exact ⟨List.mem_of_find?_eq_some h, h1⟩

theorem depsOf_eq_of_get {reg : List Component} {name : String} {c : Component}
    (h : get_component_in reg name = some c) : depsOf reg name = c.dependencies := by
  unfold depsOf
  rw [h]

theorem length_filter_lt {α : Type} (p q : α → Bool) (l : List α) (a : α)
    (ha : a ∈ l) (hpa : p a = false) (hqa : q a = true)
    (h : ∀ x, p x = true → q x = true) :
    (l.filter p).length < (l.filter q).length := by
  induction l with
  | nil => cases ha
  | cons b l ih =>
    rcases List.mem_cons.mp ha with hab | hb
    · subst hab
      have hle := (List.monotone_filter_right l h).length_le
      simp only [List.filter_cons, hpa, hqa]
      simp only [if_true]
      simp only [Bool.false_eq_true, if_false, List.length_cons]
      omega
    · have hle : (l.filter p).length < (l.filter q).length := ih hb
      cases hpb : p b
      · cases hqb : q b <;>
          simp only [List.filter_cons, hpb, hqb, Bool.false_eq_true, if_false, if_true,
            List.length_cons] <;> omega
      · have hqb : q b = true := h b hpb
        simp only [List.filter_cons, hpb, hqb, if_true, List.length_cons]
        omega

theorem dof_congr {reg : List Component} {P1 P2 acc1 acc2 : List String}
    (l : List String)
    (h : ∀ d, (d ∈ P1 ∨ d ∈ acc1) → (d ∈ P2 ∨ d ∈ acc2)) :
    deps_ordered_from reg P1 acc1 l = true → deps_ordered_from reg P2 acc2 l = true := by
  induction l generalizing acc1 acc2 with
  | nil => intro _; rfl
  | cons n rest ih =>
    intro hl
    rw [deps_ordered_from, Bool.and_eq_true] at hl ⊢
    refine ⟨?_, ih (fun d hd => ?_) hl.2⟩
    · rw [List.all_eq_true] at hl ⊢
      intro d hd
      have := hl.1 d hd
      rw [Bool.or_eq_true, decide_eq_true_eq, decide_eq_true_eq] at this ⊢
      exact h d this
    · rcases hd with hd | hd
      · rcases h d (Or.inl hd) with h2 | h2
        · exact Or.inl h2
        · exact Or.inr (List.mem_cons_of_mem _ h2)
      · rcases List.mem_cons.mp hd with hd | hd
        · exact Or.inr (hd ▸ List.mem_cons_self _ _)
        · rcases h d (Or.inr hd) with h2 | h2
          · exact Or.inl h2
          · exact Or.inr (List.mem_cons_of_mem _ h2)

theorem dof_append_singleton {reg : List Component} {P : List String}
    (acc l : List String) (x : String) :
    deps_ordered_from reg P acc (l ++ [x]) = true ↔
      (deps_ordered_from reg P acc l = true ∧
        ∀ d ∈ depsOf reg x, d ∈ P ∨ d ∈ acc ∨ d ∈ l) := by
  induction l generalizing acc with
  | nil =>
    simp only [List.nil_append, deps_ordered_from, Bool.and_eq_true, List.all_eq_true,
      Bool.or_eq_true, decide_eq_true_eq]
    constructor
    · intro h
      refine ⟨trivial, fun d hd => ?_⟩
      rcases h.1 d hd with h2 | h2
      · exact Or.inl h2
      · exact Or.inr (Or.inl h2)
    · intro h
      refine ⟨fun d hd => ?_, trivial⟩
      rcases h.2 d hd with h2 | h2 | h2
      · exact Or.inl h2
      · exact Or.inr h2
      · cases h2
  | cons n rest ih =>
    simp only [List.cons_append, deps_ordered_from, Bool.and_eq_true, List.append_eq]
    rw [ih (n :: acc)]
    constructor
    · intro h
      refine ⟨⟨h.1, h.2.1⟩, fun d hd => ?_⟩
      rcases h.2.2 d hd with h2 | h2 | h2
      · exact Or.inl h2
      · rcases List.mem_cons.mp h2 with h3 | h3
        · exact Or.inr (Or.inr (h3 ▸ List.mem_cons_self _ _))
        · exact Or.inr (Or.inl h3)
      · exact Or.inr (Or.inr (List.mem_cons_of_mem _ h2))
    · intro h
      refine ⟨h.1.1, h.1.2, fun d hd => ?_⟩
      rcases h.2 d hd with h2 | h2 | h2
      · exact Or.inl h2
      · exact Or.inr (Or.inl (List.mem_cons_of_mem _ h2))
      · rcases List.mem_cons.mp h2 with h3 | h3
        · exact Or.inr (Or.inl (h3 ▸ List.mem_cons_self _ _))
        · exact Or.inr (Or.inr h3)

theorem dof_drop_pending {reg : List Component} {x : String} {P : List String}
    (acc l : List String) (hl : ∀ n ∈ l, x ∉ depsOf reg n) :
    deps_ordered_from reg (x :: P) acc l = true →
    deps_ordered_from reg P acc l = true := by
  induction l generalizing acc with
  | nil => intro _; rfl
  | cons n rest ih =>
    intro h
    rw [deps_ordered_from, Bool.and_eq_true] at h ⊢
    refine ⟨?_, ih _ (fun m hm => hl m (List.mem_cons_of_mem _ hm)) h.2⟩
    rw [List.all_eq_true] at h ⊢
    intro d hd
    have := h.1 d hd
    rw [Bool.or_eq_true, decide_eq_true_eq, decide_eq_true_eq] at this ⊢
    rcases this with h2 | h2
    · rcases List.mem_cons.mp h2 with h3 | h3
      · exact absurd (h3 ▸ hd) (hl n (List.mem_cons_self _ _))
      · exact Or.inl h3
    · exact Or.inr h2

theorem dof_mem_deps {reg : List Component} {P : List String}
    (acc l : List String) (hl : deps_ordered_from reg P acc l = true)
    {n d : String} (hn : n ∈ l) (hd : d ∈ depsOf reg n) :
    d ∈ P ∨ d ∈ acc ∨ d ∈ l := by
  induction l generalizing acc with
  | nil => cases hn
  | cons m rest ih =>
    rw [deps_ordered_from, Bool.and_eq_true, List.all_eq_true] at hl
    rcases List.mem_cons.mp hn with hnm | hnm
    · subst hnm
      have := hl.1 d hd
      rw [Bool.or_eq_true, decide_eq_true_eq, decide_eq_true_eq] at this
      rcases this with h2 | h2
      · exact Or.inl h2
      · exact Or.inr (Or.inl h2)
    · rcases ih _ hl.2 hnm with h2 | h2 | h2
      · exact Or.inl h2
      · rcases List.mem_cons.mp h2 with h3 | h3
        · exact Or.inr (Or.inr (h3 ▸ List.mem_cons_self _ _))
        · exact Or.inr (Or.inl h3)
      · exact Or.inr (Or.inr (List.mem_cons_of_mem _ h2))

/-! Soundness of the resolver state transformation. -/

theorem visitFold_sound {reg : List Component} {fuel : Nat}
    (ih : ∀ (name : String) (st st' : ResolveState),
      visitF reg fuel name st = some st' → VisitSound reg name st st') :
    ∀ (l : List String) (st st' : ResolveState),
      l.foldlM (fun s d => visitF reg fuel d s) st = some st' →
      FoldSound reg l st st' := by
  intro l
  induction l with
  | nil =>
    intro st st' h
    simp only [List.foldlM_nil, Option.pure_def, Option.some.injEq] at h
    subst h
    exact { vis_mono := fun _ hx => hx,
            seeds_vis := fun d hd => absurd hd (List.not_mem_nil d),
            result_ext := ⟨[], (List.append_nil _).symm, List.nodup_nil,
              fun x hx => absurd hx (List.not_mem_nil x)⟩,
            vis_resolved := fun _ hx => Or.inl hx }
  | cons d rest ihl =>
    intro st st' h
    rw [List.foldlM_cons] at h
    rcases Option.bind_eq_some.mp h with ⟨sm, h1, h2⟩
    have S1 := ih d st sm h1
    have S2 := ihl sm st' h2
    rcases S1.result_ext with ⟨d1, e1, nd1, p1⟩
    rcases S2.result_ext with ⟨d2, e2, nd2, p2⟩
    refine { vis_mono := ?_, seeds_vis := ?_, result_ext := ?_, vis_resolved := ?_ }
    · exact fun x hx => S2.vis_mono x (S1.vis_mono x hx)
    · intro e he
      rcases List.mem_cons.mp he with rfl | he2
      · exact S2.vis_mono e S1.seed_vis
      · exact S2.seeds_vis e he2
    · refine ⟨d1 ++ d2, ?_, ?_, ?_⟩
      · rw [e2, e1, List.append_assoc]
      · rw [List.nodup_append]
        refine ⟨nd1, nd2, fun x hx1 hx2 => ?_⟩
        exact (p2 x hx2).1 ((p1 x hx1).2.1)
      · intro x hx
        rcases List.mem_append.mp hx with hx1 | hx2
        · obtain ⟨ha, hb, hc, hr⟩ := p1 x hx1
          exact ⟨ha, S2.vis_mono x hb, hc, ⟨d, List.mem_cons_self _ _, hr⟩⟩
        · obtain ⟨ha, hb, hc, hr⟩ := p2 x hx2
          refine ⟨fun hmem => ha (S1.vis_mono x hmem), hb, hc, ?_⟩
          rcases hr with ⟨e, he, hre⟩
          exact ⟨e, List.mem_cons_of_mem _ he, hre⟩
    · intro x hx
      rcases S2.vis_resolved x hx with hx2 | hx2
      · rcases S1.vis_resolved x hx2 with hx3 | hx3
        · exact Or.inl hx3
        · exact Or.inr (fun hs => e2 ▸ List.mem_append_left _ (hx3 hs))
      · exact Or.inr hx2

theorem visitF_sound {reg : List Component} :
    ∀ (fuel : Nat) (name : String) (st st' : ResolveState),
      visitF reg fuel name st = some st' → VisitSound reg name st st' := by
  intro fuel
  induction fuel with
  | zero =>
    intro name st st' h
    exact Option.noConfusion h
  | succ fuel ih =>
    intro name st st' h
    simp only [visitF] at h
    by_cases hv : name ∈ st.visited
    · rw [if_pos hv, Option.some.injEq] at h
      subst h
      exact { vis_mono := fun _ hx => hx, seed_vis := hv,
              result_ext := ⟨[], (List.append_nil _).symm, List.nodup_nil,
                fun x hx => absurd hx (List.not_mem_nil x)⟩,
              vis_resolved := fun _ hx => Or.inl hx }
    · rw [if_neg hv] at h
      cases hg : get_component_in reg name with
      | none =>
        rw [hg, Option.some.injEq] at h
        subst h
        refine { vis_mono := ?_, seed_vis := ?_, result_ext := ?_, vis_resolved := ?_ }
        · exact fun x hx => List.mem_cons_of_mem _ hx
        · exact List.mem_cons_self _ _
        · exact ⟨[], (List.append_nil _).symm, List.nodup_nil,
            fun x hx => absurd hx (List.not_mem_nil x)⟩
        · intro x hx
          rcases List.mem_cons.mp hx with hx1 | hx1
          · refine Or.inr (fun hs => ?_)
            rw [hx1, hg] at hs
            cases hs
          · exact Or.inl hx1
      | some c =>
        rw [hg] at h
        rcases Option.map_eq_some'.mp h with ⟨st2, hfold, hst'⟩
        have F := visitFold_sound ih c.dependencies _ st2 hfold
        rcases F.result_ext with ⟨dl, e1, nd1, p1⟩
        subst hst'
        have hedge : ∀ dd ∈ c.dependencies, depEdge reg name dd := by
          intro dd hdd
          unfold depEdge
          rw [depsOf_eq_of_get hg]
          exact hdd
        refine { vis_mono := ?_, seed_vis := ?_, result_ext := ?_, vis_resolved := ?_ }
        · exact fun x hx => F.vis_mono x (List.mem_cons_of_mem _ hx)
        · exact F.vis_mono name (List.mem_cons_self _ _)
        · refine ⟨dl ++ [name], ?_, ?_, ?_⟩
          · show st2.result ++ [name] = st.result ++ (dl ++ [name])
            rw [e1]
            show (st.result ++ dl) ++ [name] = st.result ++ (dl ++ [name])
            rw [List.append_assoc]
          · rw [List.nodup_append]
            refine ⟨nd1, List.nodup_singleton _, fun x hx1 hx2 => ?_⟩
            rw [List.mem_singleton] at hx2
            subst hx2
            exact (p1 x hx1).1 (List.mem_cons_self _ _)
          · intro x hx
            rcases List.mem_append.mp hx with hx1 | hx2
            · obtain ⟨ha, hb, hc, hr⟩ := p1 x hx1
              refine ⟨fun hmem => ha (List.mem_cons_of_mem _ hmem), hb, hc, Or.inr ?_⟩
              rcases hr with ⟨dd, hdd, hrd⟩
              rcases hrd with rfl | h3
              · exact Relation.TransGen.single (hedge x hdd)
              · exact Relation.TransGen.head (hedge dd hdd) h3
            · rw [List.mem_singleton] at hx2
              subst hx2
              refine ⟨hv, F.vis_mono x (List.mem_cons_self _ _), ?_, Or.inl rfl⟩
              rw [hg]
              rfl
        · intro x hx
          rcases F.vis_resolved x hx with hx2 | hx2
          · rcases List.mem_cons.mp hx2 with hx3 | hx3
            · subst hx3
              exact Or.inr (fun _ => List.mem_append_right _ (List.mem_singleton_self _))
            · exact Or.inl hx3
          · exact Or.inr (fun hs => List.mem_append_left _ (hx2 hs))

theorem resolveFuel_sound {reg : List Component} {fuel : Nat} {sel : List String}
    {stF : ResolveState} (h : resolveFuel reg fuel sel = some stF) :
    FoldSound reg sel { visited := [], result := [] } stF :=
  visitFold_sound (fun name st st' hh => visitF_sound fuel name st st' hh) sel _ stF h

/-! Adequacy: the fuel chosen by resolve_dependencies_in is always sufficient,
and beyond that bound the computation is fuel independent, which is the
shallow-embedding form of termination of the Python recursion. -/

theorem unvisitedCount_le_of_mono {reg : List Component} {st st' : ResolveState}
    (h : ∀ x ∈ st.visited, x ∈ st'.visited) :
    unvisitedCount reg st' ≤ unvisitedCount reg st := by
  unfold unvisitedCount
  refine (List.monotone_filter_right _ (fun n hn => ?_)).length_le
  rw [decide_eq_true_eq] at hn ⊢
  exact fun hmem => hn (h n hmem)

theorem unvisitedCount_le_numNames (reg : List Component) (st : ResolveState) :
    unvisitedCount reg st ≤ numNames reg :=
  List.length_filter_le _ _

theorem unvisitedCount_lt_insert {reg : List Component} {st : ResolveState}
    {name : String} (hreg : (get_component_in reg name).isSome = true)
    (hv : name ∉ st.visited) (r : List String) :
    unvisitedCount reg { visited := name :: st.visited, result := r } <
      unvisitedCount reg st := by
  unfold unvisitedCount
  apply length_filter_lt _ _ _ name
  · rw [List.mem_dedup]
    rcases Option.isSome_iff_exists.mp hreg with ⟨c, hc⟩
    rcases get_component_in_spec hc with ⟨hmem, hname⟩
    rw [List.mem_map]
    exact ⟨c, hmem, hname⟩
  · simp
  · simp [hv]
  · intro x hx
    rw [decide_eq_true_eq] at hx ⊢
    exact fun hmem => hx (List.mem_cons_of_mem _ hmem)

theorem visitF_adequate {reg : List Component} :
    ∀ (fuel fuel' : Nat) (name : String) (st : ResolveState),
      unvisitedCount reg st < fuel → unvisitedCount reg st < fuel' →
      visitF reg fuel name st = visitF reg fuel' name st ∧
        (visitF reg fuel name st).isSome = true := by
  intro fuel
  induction fuel with
  | zero =>
    intro fuel' name st h _
    exact absurd h (Nat.not_lt_zero _)
  | succ fuel ih =>
    intro fuel' name st h h'
    cases fuel' with
    | zero => exact absurd h' (Nat.not_lt_zero _)
    | succ f2 =>
      simp only [visitF]
      by_cases hv : name ∈ st.visited
      · simp [hv]
      · rw [if_neg hv, if_neg hv]
        cases hg : get_component_in reg name with
        | none =>
          exact ⟨rfl, rfl⟩
        | some c =>
          have hsome : (get_component_in reg name).isSome = true := by rw [hg]; rfl
          have hcount : unvisitedCount reg
              { visited := name :: st.visited, result := st.result } < unvisitedCount reg st :=
            unvisitedCount_lt_insert hsome hv st.result
          have hfold : ∀ (l : List String) (s : ResolveState),
              unvisitedCount reg s < fuel → unvisitedCount reg s < f2 →
              l.foldlM (fun s d => visitF reg fuel d s) s =
                l.foldlM (fun s d => visitF reg f2 d s) s ∧
              (l.foldlM (fun s d => visitF reg fuel d s) s).isSome = true := by
            intro l
            induction l with
            | nil =>
              intro s _ _
              exact ⟨rfl, rfl⟩
            | cons d rest ihl =>
              intro s hs hs'
              have hd := ih f2 d s hs hs'
              rw [List.foldlM_cons, List.foldlM_cons]
              rcases Option.isSome_iff_exists.mp hd.2 with ⟨sm, hsm⟩
              rw [hsm] at hd ⊢
              rw [← hd.1]
              simp only [Option.bind_eq_bind', Option.some_bind]
              have S := visitF_sound fuel d s sm hsm
              have hsmc : unvisitedCount reg sm ≤ unvisitedCount reg s :=
                unvisitedCount_le_of_mono S.vis_mono
              exact ihl sm (lt_of_le_of_lt hsmc hs) (lt_of_le_of_lt hsmc hs')
          have h1 := hfold c.dependencies { visited := name :: st.visited, result := st.result }
            (lt_of_lt_of_le hcount (Nat.lt_succ_iff.mp h))
            (lt_of_lt_of_le hcount (Nat.lt_succ_iff.mp h'))
          refine ⟨?_, ?_⟩
          · exact congrArg (Option.map
              (fun st2 : ResolveState =>
                ({ visited := st2.visited, result := st2.result ++ [name] } : ResolveState)))
              h1.1
          · rcases Option.isSome_iff_exists.mp h1.2 with ⟨s2, h2⟩
            exact (congrArg (fun x => (Option.map
              (fun st2 : ResolveState =>
                ({ visited := st2.visited, result := st2.result ++ [name] } : ResolveState))
              x).isSome) h2).trans rfl

theorem resolveFuel_adequate {reg : List Component} (sel : List String) :
    ∀ (fuel fuel' : Nat), numNames reg < fuel → numNames reg < fuel' →
      resolveFuel reg fuel sel = resolveFuel reg fuel' sel ∧
        (resolveFuel reg fuel sel).isSome = true := by
  have main : ∀ (l : List String) (st : ResolveState) (fuel fuel' : Nat),
      numNames reg < fuel → numNames reg < fuel' →
      l.foldlM (fun s n => visitF reg fuel n s) st =
        l.foldlM (fun s n => visitF reg fuel' n s) st ∧
      (l.foldlM (fun s n => visitF reg fuel n s) st).isSome = true := by
    intro l
    induction l with
    | nil =>
      intro st fuel fuel' _ _
      exact ⟨rfl, rfl⟩
    | cons n rest ihl =>
      intro st fuel fuel' h h'
      have hst := lt_of_le_of_lt (unvisitedCount_le_numNames reg st) h
      have hst' := lt_of_le_of_lt (unvisitedCount_le_numNames reg st) h'
      have hd := visitF_adequate fuel fuel' n st hst hst'
      rw [List.foldlM_cons, List.foldlM_cons]
      rcases Option.isSome_iff_exists.mp hd.2 with ⟨sm, hsm⟩
      rw [hsm] at hd ⊢
      rw [← hd.1]
      simp only [Option.bind_eq_bind', Option.some_bind]
      exact ihl sm fuel fuel' h h'
  intro fuel fuel' h h'
  exact main sel _ fuel fuel' h h'

theorem resolve_eq_of_fuel {reg : List Component} {l : List String} {stF : ResolveState}
    (h : resolveFuel reg (numNames reg + 1) l = some stF) :
    resolve_dependencies_in reg l = stF.result := by
  unfold resolve_dependencies_in
  rw [h]

theorem resolve_spec (reg : List Component) (sel : List String) :
    ∃ stF, resolveFuel reg (numNames reg + 1) sel = some stF ∧
      resolve_dependencies_in reg sel = stF.result := by
  have h := (resolveFuel_adequate sel (numNames reg + 1) (numNames reg + 1)
    (Nat.lt_succ_self _) (Nat.lt_succ_self _)).2
  rcases Option.isSome_iff_exists.mp h with ⟨stF, hF⟩
  refine ⟨stF, hF, ?_⟩
  unfold resolve_dependencies_in
  rw [hF]

/-! Ordering: on a well-formed acyclic registry the resolver output is
dependency ordered. -/

theorem visitFold_ordered {reg : List Component} {fuel : Nat}
    (ih : ∀ (name : String) (st st' : ResolveState) (P : List String),
      visitF reg fuel name st = some st' → ResolveInv reg P st →
      (∀ p ∈ P, Relation.TransGen (depEdge reg) p name) → ResolveInv reg P st') :
    ∀ (l : List String) (st st' : ResolveState) (P : List String),
      l.foldlM (fun s d => visitF reg fuel d s) st = some st' →
      ResolveInv reg P st →
      (∀ d ∈ l, ∀ p ∈ P, Relation.TransGen (depEdge reg) p d) →
      ResolveInv reg P st' := by
  intro l
  induction l with
  | nil =>
    intro st st' P h hInv _
    simp only [List.foldlM_nil, Option.pure_def, Option.some.injEq] at h
    subst h
    exact hInv
  | cons d rest ihl =>
    intro st st' P h hInv hreach
    rw [List.foldlM_cons] at h
    rcases Option.bind_eq_some.mp h with ⟨sm, h1, h2⟩
    have hInv2 := ih d st sm P h1 hInv (fun p hp => hreach d (List.mem_cons_self _ _) p hp)
    exact ihl sm st' P h2 hInv2 (fun e he p hp => hreach e (List.mem_cons_of_mem _ he) p hp)

theorem visitF_ordered {reg : List Component}
    (hwf : WfRegistry reg) (hacy : AcyclicRegistry reg) :
    ∀ (fuel : Nat) (name : String) (st st' : ResolveState) (P : List String),
      visitF reg fuel name st = some st' → ResolveInv reg P st →
      (∀ p ∈ P, Relation.TransGen (depEdge reg) p name) →
      ResolveInv reg P st' := by
  intro fuel
  induction fuel with
  | zero =>
    intro name st st' P h
    exact absurd h (by simp [visitF])
  | succ fuel ih =>
    intro name st st' P h hInv hreach
    simp only [visitF] at h
    by_cases hv : name ∈ st.visited
    · rw [if_pos hv, Option.some.injEq] at h
      subst h
      exact hInv
    · rw [if_neg hv] at h
      cases hg : get_component_in reg name with
      | none =>
        rw [hg, Option.some.injEq] at h
        subst h
        refine { vis_resolved := ?_, res_vis := ?_, res_nodup := hInv.res_nodup,
                 res_ordered := hInv.res_ordered, pend_vis := ?_ }
        · intro n hn hns
          rcases List.mem_cons.mp hn with rfl | hn2
          · rw [hg] at hns
            cases hns
          · exact hInv.vis_resolved n hn2 hns
        · exact fun n hn => List.mem_cons_of_mem _ (hInv.res_vis n hn)
        · exact fun p hp => List.mem_cons_of_mem _ (hInv.pend_vis p hp)
      | some c =>
        rw [hg] at h
        rcases Option.map_eq_some'.mp h with ⟨st2, hfold, hst'⟩
        subst hst'
        have hdeps : depsOf reg name = c.dependencies := depsOf_eq_of_get hg
        have hedge : ∀ dd ∈ c.dependencies, depEdge reg name dd := by
          intro dd hdd
          unfold depEdge
          rw [hdeps]
          exact hdd
        have hcreg : c ∈ reg := (get_component_in_spec hg).1
        have hInv1 : ResolveInv reg (name :: P)
            { visited := name :: st.visited, result := st.result } := by
          refine { vis_resolved := ?_, res_vis := ?_, res_nodup := hInv.res_nodup,
                   res_ordered := ?_, pend_vis := ?_ }
          · intro n hn hns
            rcases List.mem_cons.mp hn with rfl | hn2
            · exact Or.inr (List.mem_cons_self _ _)
            · rcases hInv.vis_resolved n hn2 hns with h3 | h3
              · exact Or.inl h3
              · exact Or.inr (List.mem_cons_of_mem _ h3)
          · exact fun n hn => List.mem_cons_of_mem _ (hInv.res_vis n hn)
          · refine dof_congr _ (fun dd hdd => ?_) hInv.res_ordered
            rcases hdd with h3 | h3
            · exact Or.inl (List.mem_cons_of_mem _ h3)
            · exact Or.inr h3
          · intro p hp
            rcases List.mem_cons.mp hp with rfl | hp2
            · exact List.mem_cons_self _ _
            · exact List.mem_cons_of_mem _ (hInv.pend_vis p hp2)
        have hInv2 := visitFold_ordered ih c.dependencies _ st2 (name :: P) hfold hInv1
          (by
            intro dd hdd p hp
            rcases List.mem_cons.mp hp with rfl | hp2
            · exact Relation.TransGen.single (hedge dd hdd)
            · exact Relation.TransGen.tail (hreach p hp2) (hedge dd hdd))
        have F : FoldSound reg c.dependencies
            { visited := name :: st.visited, result := st.result } st2 :=
          visitFold_sound (fun nm s s' hh => visitF_sound fuel nm s s' hh)
            c.dependencies _ st2 hfold
        rcases F.result_ext with ⟨dl, e1, _, p1⟩
        have hname2 : name ∉ st2.result := by
          rw [e1]
          intro hmem
          rcases List.mem_append.mp hmem with hmem | hmem
          · exact hv (hInv.res_vis name hmem)
          · exact (p1 name hmem).1 (List.mem_cons_self _ _)
        have hnodep : ∀ n ∈ st2.result, name ∉ depsOf reg n := by
          rw [e1]
          intro n hn hdep
          rcases List.mem_append.mp hn with hn | hn
          · rcases dof_mem_deps _ _ hInv.res_ordered hn hdep with h3 | h3 | h3
            · exact hv (hInv.pend_vis name h3)
            · exact absurd h3 (List.not_mem_nil _)
            · exact hv (hInv.res_vis name h3)
          · rcases (p1 n hn).2.2.2 with ⟨dd, hdd, hrd⟩
            rcases hrd with rfl | h3
            · exact hacy name (Relation.TransGen.head (hedge n hdd)
                (Relation.TransGen.single (show depEdge reg n name from hdep)))
            · exact hacy name (Relation.TransGen.head (hedge dd hdd)
                (Relation.TransGen.tail h3 (show depEdge reg n name from hdep)))
        have hdepres : ∀ dd ∈ c.dependencies, dd ∈ st2.result := by
          intro dd hdd
          have hvis : dd ∈ st2.visited := F.seeds_vis dd hdd
          have hreg2 : (get_component_in reg dd).isSome = true := hwf c hcreg dd hdd
          rcases hInv2.vis_resolved dd hvis hreg2 with h3 | h3
          · exact h3
          · rcases List.mem_cons.mp h3 with rfl | h4
            · exact absurd (Relation.TransGen.single (hedge dd hdd)) (hacy dd)
            · exact absurd (Relation.TransGen.tail (hreach dd h4) (hedge dd hdd)) (hacy dd)
        refine { vis_resolved := ?_, res_vis := ?_, res_nodup := ?_,
                 res_ordered := ?_, pend_vis := ?_ }
        · intro n hn hns
          rcases hInv2.vis_resolved n hn hns with h3 | h3
          · exact Or.inl (List.mem_append_left _ h3)
          · rcases List.mem_cons.mp h3 with rfl | h4
            · exact Or.inl (List.mem_append_right _ (List.mem_singleton_self _))
            · exact Or.inr h4
        · intro n hn
          rcases List.mem_append.mp hn with h3 | h3
          · exact hInv2.res_vis n h3
          · rw [List.mem_singleton] at h3
            subst h3
            exact F.vis_mono n (List.mem_cons_self _ _)
        · rw [List.nodup_append]
          refine ⟨hInv2.res_nodup, List.nodup_singleton _, fun x hx1 hx2 => ?_⟩
          rw [List.mem_singleton] at hx2
          subst hx2
          exact hname2 hx1
        · rw [dof_append_singleton]
          refine ⟨dof_drop_pending _ _ hnodep hInv2.res_ordered, ?_⟩
          intro dd hdd
          rw [hdeps] at hdd
          exact Or.inr (Or.inr (hdepres dd hdd))
        · exact fun p hp => F.vis_mono p (List.mem_cons_of_mem _ (hInv.pend_vis p hp))

theorem resolve_ordered {reg : List Component} (hwf : WfRegistry reg)
    (hacy : AcyclicRegistry reg) (sel : List String) :
    (resolve_dependencies_in reg sel).Nodup ∧
      deps_ordered reg (resolve_dependencies_in reg sel) = true := by
  rcases resolve_spec reg sel with ⟨stF, hF, hres⟩
  have hInv0 : ResolveInv reg [] { visited := [], result := [] } := by
    refine { vis_resolved := ?_, res_vis := ?_, res_nodup := List.nodup_nil,
             res_ordered := rfl, pend_vis := ?_ }
    · intro n hn
      exact absurd hn (List.not_mem_nil n)
    · intro n hn
      exact absurd hn (List.not_mem_nil n)
    · intro p hp
      exact absurd hp (List.not_mem_nil p)
  have hInvF := visitFold_ordered (visitF_ordered hwf hacy (numNames reg + 1))
    sel _ stF [] hF hInv0 (fun d _ p hp => absurd hp (List.not_mem_nil p))
  rw [hres]
  exact ⟨hInvF.res_nodup, hInvF.res_ordered⟩

/-! General facts about the resolver output needed by several claims. -/

theorem resolve_nodup (reg : List Component) (sel : List String) :
    (resolve_dependencies_in reg sel).Nodup := by
  rcases resolve_spec reg sel with ⟨stF, hF, hres⟩
  have F := resolveFuel_sound hF
  rcases F.result_ext with ⟨dl, e1, nd, _⟩
  rw [hres, e1]
  simpa using nd

theorem resolve_mem_registered {reg : List Component} {sel : List String} {n : String}
    (hn : n ∈ resolve_dependencies_in reg sel) :
    (get_component_in reg n).isSome = true := by
  rcases resolve_spec reg sel with ⟨stF, hF, hres⟩
  have F := resolveFuel_sound hF
  rcases F.result_ext with ⟨dl, e1, _, p1⟩
  rw [hres, e1] at hn
  simp only [List.nil_append] at hn
  exact (p1 n hn).2.2.1

theorem resolve_mem_of_selected {reg : List Component} {sel : List String} {n : String}
    (hsel : n ∈ sel) (hreg : (get_component_in reg n).isSome = true) :
    n ∈ resolve_dependencies_in reg sel := by
  rcases resolve_spec reg sel with ⟨stF, hF, hres⟩
  have F := resolveFuel_sound hF
  have hvis : n ∈ stF.visited := F.seeds_vis n hsel
  rcases F.vis_resolved n hvis with h3 | h3
  · exact absurd h3 (List.not_mem_nil n)
  · rw [hres]
    exact h3 hreg

/-! Stability of an already dependency-closed, duplicate-free list of
registered names: resolving it again reproduces it, the key step for
idempotence. -/

theorem visitFold_all_visited (reg : List Component) (fuel : Nat) :
    ∀ (l : List String) (st : ResolveState), 1 ≤ fuel →
      (∀ d ∈ l, d ∈ st.visited) →
      l.foldlM (fun s d => visitF reg fuel d s) st = some st := by
  intro l
  induction l with
  | nil =>
    intro st _ _
    rfl
  | cons d rest ihl =>
    intro st hf hall
    rw [List.foldlM_cons]
    cases fuel with
    | zero => exact absurd hf (by omega)
    | succ f =>
      have hstep : visitF reg (f + 1) d st = some st := by
        simp only [visitF]
        rw [if_pos (hall d (List.mem_cons_self _ _))]
      rw [hstep]
      simp only [Option.bind_eq_bind', Option.some_bind]
      exact ihl st hf (fun e he => hall e (List.mem_cons_of_mem _ he))

theorem resolve_run_stable {reg : List Component} :
    ∀ (suf : List String) (st : ResolveState) (acc : List String) (fuel : Nat),
      2 ≤ fuel →
      (∀ x, x ∈ st.visited ↔ x ∈ acc) →
      (∀ n ∈ suf, n ∉ acc) →
      (∀ n ∈ suf, (get_component_in reg n).isSome = true) →
      suf.Nodup →
      deps_ordered_from reg [] acc suf = true →
      suf.foldlM (fun s n => visitF reg fuel n s) st =
        some { visited := suf.reverse ++ st.visited, result := st.result ++ suf } := by
  intro suf
  induction suf with
  | nil =>
    intro st acc fuel _ _ _ _ _ _
    simp only [List.foldlM_nil, List.reverse_nil, List.nil_append, List.append_nil]
    rfl
  | cons n rest ih =>
    intro st acc fuel hf hvis hnacc hregd hnd hord
    obtain ⟨f1, rfl⟩ : ∃ f1, fuel = f1 + 1 := ⟨fuel - 1, by omega⟩
    rw [deps_ordered_from, Bool.and_eq_true, List.all_eq_true] at hord
    have hnv : n ∉ st.visited :=
      fun hmem => hnacc n (List.mem_cons_self _ _) ((hvis n).mp hmem)
    rcases Option.isSome_iff_exists.mp (hregd n (List.mem_cons_self _ _)) with ⟨c, hc⟩
    have hallv : ∀ d ∈ c.dependencies,
        d ∈ ({ visited := n :: st.visited, result := st.result } : ResolveState).visited := by
      intro d hd
      have hdep : d ∈ depsOf reg n := by
        rw [depsOf_eq_of_get hc]
        exact hd
      have h2 := hord.1 d hdep
      rw [Bool.or_eq_true, decide_eq_true_eq, decide_eq_true_eq] at h2
      rcases h2 with h3 | h3
      · exact absurd h3 (List.not_mem_nil d)
      · exact List.mem_cons_of_mem _ ((hvis d).mpr h3)
    have hfold := visitFold_all_visited reg f1 c.dependencies
      ({ visited := n :: st.visited, result := st.result } : ResolveState) (by omega) hallv
    have hvstep : visitF reg (f1 + 1) n st =
        some { visited := n :: st.visited, result := st.result ++ [n] } := by
      simp only [visitF]
      rw [if_neg hnv, hc]
      show (c.dependencies.foldlM (fun s d => visitF reg f1 d s)
          ({ visited := n :: st.visited, result := st.result } : ResolveState)).map
          (fun st2 => ({ visited := st2.visited, result := st2.result ++ [n] } : ResolveState)) =
        some { visited := n :: st.visited, result := st.result ++ [n] }
      rw [hfold]
      rfl
    rw [List.foldlM_cons, hvstep]
    simp only [Option.bind_eq_bind', Option.some_bind]
    have hstep2 := ih { visited := n :: st.visited, result := st.result ++ [n] } (n :: acc)
      (f1 + 1) hf
      (by
        intro x
        simp only [List.mem_cons]
        constructor
        · intro hx
          rcases hx with rfl | hx
          · exact Or.inl rfl
          · exact Or.inr ((hvis x).mp hx)
        · intro hx
          rcases hx with rfl | hx
          · exact Or.inl rfl
          · exact Or.inr ((hvis x).mpr hx))
      (by
        intro m hm hmem
        rcases List.mem_cons.mp hmem with rfl | h3
        · exact (List.nodup_cons.mp hnd).1 hm
        · exact hnacc m (List.mem_cons_of_mem _ hm) h3)
      (fun m hm => hregd m (List.mem_cons_of_mem _ hm))
      (List.nodup_cons.mp hnd).2
      hord.2
    rw [hstep2]
    simp [List.reverse_cons, List.append_assoc]

theorem resolve_idempotent {reg : List Component} (hwf : WfRegistry reg)
    (hacy : AcyclicRegistry reg) (sel : List String) :
    resolve_dependencies_in reg (resolve_dependencies_in reg sel) =
      resolve_dependencies_in reg sel := by
  by_cases hrnil : resolve_dependencies_in reg sel = []
  · rw [hrnil]
    rfl
  · have hnd := resolve_nodup reg sel
    have hregd : ∀ m ∈ resolve_dependencies_in reg sel,
        (get_component_in reg m).isSome = true :=
      fun m hm => resolve_mem_registered hm
    have hord := (resolve_ordered hwf hacy sel).2
    have hfuel : 2 ≤ numNames reg + 1 := by
      rcases List.exists_mem_of_ne_nil _ hrnil with ⟨m, hm⟩
      rcases Option.isSome_iff_exists.mp (hregd m hm) with ⟨c, hc⟩
      have hcreg := (get_component_in_spec hc).1
      have hmem : c.name ∈ (reg.map (fun c => c.name)).dedup := by
        rw [List.mem_dedup, List.mem_map]
        exact ⟨c, hcreg, rfl⟩
      have h1 : 1 ≤ numNames reg := by
        unfold numNames
        exact List.length_pos.mpr (List.ne_nil_of_mem hmem)
      omega
    have hrun := resolve_run_stable (resolve_dependencies_in reg sel)
      { visited := [], result := [] } [] (numNames reg + 1) hfuel
      (by simp) (by simp) hregd hnd hord
    have h2 : resolveFuel reg (numNames reg + 1) (resolve_dependencies_in reg sel) =
        some { visited := (resolve_dependencies_in reg sel).reverse ++ [],
               result := [] ++ resolve_dependencies_in reg sel } := hrun
    rw [resolve_eq_of_fuel h2]
    simp

/-! Acyclicity from a strictly decreasing rank function. -/

theorem rank_decreases {reg : List Component} {rank : String → Nat}
    (h : rank_ok reg rank = true) {a b : String} (hab : depEdge reg a b) :
    rank b < rank a := by
  unfold depEdge depsOf at hab
  cases hg : get_component_in reg a with
  | none =>
    rw [hg] at hab
    exact absurd hab (List.not_mem_nil b)
  | some c =>
    rw [hg] at hab
    have hab2 : b ∈ c.dependencies := hab
    rcases get_component_in_spec hg with ⟨hcreg, hname⟩
    unfold rank_ok at h
    rw [List.all_eq_true] at h
    have h2 := h c hcreg
    rw [List.all_eq_true] at h2
    have h3 := h2 b hab2
    rw [decide_eq_true_eq] at h3
    rw [hname] at h3
    exact h3

theorem acyclic_of_rank_ok {reg : List Component} (rank : String → Nat)
    (h : rank_ok reg rank = true) : AcyclicRegistry reg := by
  intro n hn
  have hdec : ∀ a b : String, Relation.TransGen (depEdge reg) a b → rank b < rank a := by
    intro a b hab
    induction hab with
    | single h1 => exact rank_decreases h h1
    | tail _ h2 ih => exact lt_trans (rank_decreases h h2) ih
  exact absurd (hdec n n hn) (lt_irrefl _)

/-! The orchestration loop: trace coverage, success aggregation, skipping. -/

theorem run_outcomes_fst (check : Nat → String → ComponentStatus)
    (inst : Nat → String → Option Bool) :
    ∀ (plan : List String) (i : Nat),
      (run_outcomes check inst i plan).map Prod.fst = plan := by
  intro plan
  induction plan with
  | nil =>
    intro i
    rfl
  | cons n rest ih =>
    intro i
    simp only [run_outcomes, List.map_cons]
    rw [ih (i + 1)]

theorem run_install_loop_iff (check : Nat → String → ComponentStatus)
    (inst : Nat → String → Option Bool) :
    ∀ (plan : List String) (i : Nat) (b : Bool),
      (run_install_loop check inst i b plan = true ↔
        (b = true ∧ ∀ p ∈ run_outcomes check inst i plan, p.2 ≠ StepOutcome.failed)) := by
  intro plan
  induction plan with
  | nil =>
    intro i b
    simp [run_install_loop, run_outcomes]
  | cons n rest ih =>
    intro i b
    rw [run_install_loop, run_outcomes]
    cases hstep : install_step (check i) (inst i) n with
    | failed =>
      rw [ih]
      simp
    | skipped =>
      rw [ih]
      simp
    | succeeded =>
      rw [ih]
      simp

theorem run_calls_ge (check : Nat → String → ComponentStatus) :
    ∀ (plan : List String) (k : Nat) (p : Nat × String),
      p ∈ run_calls check k plan → k ≤ p.1 := by
  intro plan
  induction plan with
  | nil =>
    intro k p hp
    exact absurd hp (List.not_mem_nil p)
  | cons n rest ih =>
    intro k p hp
    rw [run_calls] at hp
    by_cases hc : check k n = ComponentStatus.INSTALLED
    · rw [if_pos hc] at hp
      have := ih (k + 1) p hp
      omega
    · rw [if_neg hc] at hp
      rcases List.mem_cons.mp hp with rfl | hp2
      · exact Nat.le_refl k
      · have := ih (k + 1) p hp2
        omega

theorem run_outcomes_get (check : Nat → String → ComponentStatus)
    (inst : Nat → String → Option Bool) :
    ∀ (plan : List String) (k i : Nat) (h : i < plan.length),
      (run_outcomes check inst k plan)[i]? =
        some (plan[i], install_step (check (k + i)) (inst (k + i)) plan[i]) := by
  intro plan
  induction plan with
  | nil =>
    intro k i h
    exact absurd h (by simp)
  | cons n rest ih =>
    intro k i h
    cases i with
    | zero =>
      simp [run_outcomes]
    | succ j =>
      have hj : j < rest.length := by simpa using h
      rw [run_outcomes]
      simp only [List.getElem?_cons_succ, List.getElem_cons_succ]
      rw [ih (k + 1) j hj]
      have hadd : k + 1 + j = k + (j + 1) := by omega
      rw [hadd]

theorem run_calls_skipped (check : Nat → String → ComponentStatus) :
    ∀ (plan : List String) (k i : Nat) (h : i < plan.length),
      check (k + i) plan[i] = ComponentStatus.INSTALLED →
      (k + i, plan[i]) ∉ run_calls check k plan := by
  intro plan
  induction plan with
  | nil =>
    intro k i h
    exact absurd h (by simp)
  | cons n rest ih =>
    intro k i h hc hmem
    rw [run_calls] at hmem
    cases i with
    | zero =>
      have hc0 : check k n = ComponentStatus.INSTALLED := by simpa using hc
      rw [if_pos hc0] at hmem
      have := run_calls_ge check rest (k + 1) _ hmem
      simp at this
    | succ j =>
      have hj : j < rest.length := by simpa using h
      have hadd : k + (j + 1) = k + 1 + j := by omega
      simp only [List.getElem_cons_succ] at hc hmem
      rw [hadd] at hc hmem
      by_cases hcn : check k n = ComponentStatus.INSTALLED
      · rw [if_pos hcn] at hmem
        exact ih (k + 1) j hj hc hmem
      · rw [if_neg hcn] at hmem
        rcases List.mem_cons.mp hmem with heq | hmem2
        · have h1 := congrArg Prod.fst heq
          simp at h1
          omega
        · exact ih (k + 1) j hj hc hmem2

/-! A failing element inside forM over Except is an element of the list. -/

theorem forM_error_mem {α ε : Type} {l : List α} {f : α → Except ε Unit} {e : ε}
    (h : l.forM f = Except.error e) : ∃ x ∈ l, f x = Except.error e := by
  induction l with
  | nil => exact Except.noConfusion h
  | cons x rest ih =>
    rw [List.forM_cons'] at h
    cases hf : f x with
    | error e2 =>
      rw [hf] at h
      have h2 : (Except.error e2 : Except ε Unit) = Except.error e := h
      have he : e2 = e := by
        injection h2
      exact ⟨x, List.mem_cons_self _ _, by rw [hf, he]⟩
    | ok u =>
      rw [hf] at h
      have h2 : rest.forM f = Except.error e := h
      rcases ih h2 with ⟨y, hy, hfy⟩
      exact ⟨y, List.mem_cons_of_mem _ hy, hfy⟩

/-! Shared concrete facts about the shipped registry. -/

theorem wf_ALL : WfRegistry ALL_COMPONENTS := by
  unfold WfRegistry
  decide

theorem acy_ALL : AcyclicRegistry ALL_COMPONENTS :=
  acyclic_of_rank_ok vr_rank (by decide)

/-! Claim theorems. -/

/-- C1: for every registry whose components' dependency lists mention only
registered names and whose dependency graph is acyclic, and for every
selection list, resolve_dependencies returns a list in which each component
name occurs at most once and every declared dependency of a listed component
appears strictly earlier in the list than that component. -/
theorem resolver_plan_topologically_ordered (reg : List Component) (sel : List String)
    (hwf : WfRegistry reg) (hacy : AcyclicRegistry reg) :
    (∀ a, (resolve_dependencies_in reg sel).count a ≤ 1) ∧
      deps_ordered reg (resolve_dependencies_in reg sel) = true :=
  ⟨fun a => List.nodup_iff_count_le_one.mp (resolve_nodup reg sel) a,
   (resolve_ordered hwf hacy sel).2⟩

/-- Witness for C1 at the shipped registry and a concrete selection. -/
theorem resolver_plan_topologically_ordered_witness :
    WfRegistry ALL_COMPONENTS ∧ AcyclicRegistry ALL_COMPONENTS ∧
      ((∀ a, (resolve_dependencies_in ALL_COMPONENTS ["depth3d", "stardust-xr"]).count a ≤ 1) ∧
        deps_ordered ALL_COMPONENTS
          (resolve_dependencies_in ALL_COMPONENTS ["depth3d", "stardust-xr"]) = true) :=
  ⟨wf_ALL, acy_ALL,
   resolver_plan_topologically_ordered ALL_COMPONENTS ["depth3d", "stardust-xr"] wf_ALL acy_ALL⟩

/-- C2 counterexample: with the --components entry point the selection is the
literal user list, so the required component xrlinuxdriver is neither in the
selection nor in the resulting plan when only opentrack is named. -/
theorem components_flag_omits_required_counterexample :
    "xrlinuxdriver" ∈ required_names ∧
      determine_selection
        { minimal := false, full := false, components := some ["opentrack"] } "" =
        ["opentrack"] ∧
      "xrlinuxdriver" ∉ determine_selection
        { minimal := false, full := false, components := some ["opentrack"] } "" ∧
      "xrlinuxdriver" ∉ resolve_dependencies
        (determine_selection
          { minimal := false, full := false, components := some ["opentrack"] } "") := by
  decide

/-- C2 amended: every entry point except --components (that is, --minimal,
--full and the interactive path) includes every required component in the
selection it builds. -/
theorem required_in_noncomponents_entry_selections (args : CliArgs) (choice : String)
    (h : args.components = none) :
    ∀ n ∈ required_names, n ∈ determine_selection args choice := by
  intro n hn
  unfold determine_selection
  by_cases hm : args.minimal
  · rw [if_pos hm]
    exact hn
  · rw [if_neg hm]
    by_cases hf : args.full
    · rw [if_pos hf]
      have hsub : ∀ m ∈ required_names, m ∈ all_names := by decide
      exact hsub n hn
    · rw [if_neg hf, h]
      show n ∈ interactive_select choice
      unfold interactive_select
      by_cases hall : choice.toLower = "all"
      · rw [if_pos hall, List.mem_dedup]
        have hsub : ∀ m ∈ required_names, m ∈ all_names := by decide
        exact hsub n hn
      · rw [if_neg hall]
        by_cases hemp : choice = ""
        · rw [if_pos hemp, List.mem_dedup]
          exact hn
        · rw [if_neg hemp, List.mem_dedup]
          exact List.mem_append_left _ hn

/-- Witness for the amended C2 at a concrete flagless invocation. -/
theorem required_in_noncomponents_entry_selections_witness :
    ({ minimal := false, full := false, components := none } : CliArgs).components = none ∧
      "xrlinuxdriver" ∈ determine_selection
        { minimal := false, full := false, components := none } "3" :=
  ⟨rfl, required_in_noncomponents_entry_selections
    { minimal := false, full := false, components := none } "3" rfl "xrlinuxdriver" (by decide)⟩

/-- C3 counterexample: a registry with two components named x, the first of
which depends on the unregistered name ghost, is built and used without any
failure: lookup returns the first match, the resolver silently skips the
unknown dependency and produces a normal installation plan, so nothing aborts
before installation activity. -/
theorem registry_without_validation_counterexample :
    dup_registry.map (fun c => c.name) = ["x", "x"] ∧
      (∃ c ∈ dup_registry, "ghost" ∈ c.dependencies) ∧
      get_component_in dup_registry "ghost" = none ∧
      get_component_in dup_registry "x" = dup_registry[0]? ∧
      resolve_dependencies_in dup_registry ["x"] = ["x"] := by
  decide

/-- C3 amended: registry construction performs no validation, so duplicate
names and unknown dependency names are tolerated silently rather than being
fatal; the shipped registry happens to be well formed (unique names, every
dependency registered). -/
theorem registry_construction_unvalidated_but_wellformed :
    (ALL_COMPONENTS.map (fun c => c.name)).Nodup ∧
      (ALL_COMPONENTS.all (fun c => c.dependencies.all
        (fun d => (get_component d).isSome))) = true ∧
      resolve_dependencies_in dup_registry ["x", "ghost"] = ["x"] := by
  decide

/-- C4: the orchestration loop visits every element of the plan (a failure
does not abort the run), and the final success flag is true exactly when no
element's install step failed. -/
theorem orchestrator_continues_and_aggregates (check : Nat → String → ComponentStatus)
    (inst : Nat → String → Option Bool) (plan : List String) :
    (run_outcomes check inst 0 plan).map Prod.fst = plan ∧
      (run_install_loop check inst 0 true plan = true ↔
        ∀ p ∈ run_outcomes check inst 0 plan, p.2 ≠ StepOutcome.failed) := by
  refine ⟨run_outcomes_fst check inst plan 0, ?_⟩
  rw [run_install_loop_iff]
  simp

/-- Witness for C4: opentrack's install fails, the later monado is still
attempted and succeeds, and the overall flag is false. -/
theorem orchestrator_continues_and_aggregates_witness :
    ((run_outcomes demo_check demo_inst_fail 0 ["opentrack", "monado"]).map Prod.fst =
        ["opentrack", "monado"] ∧
      (run_install_loop demo_check demo_inst_fail 0 true ["opentrack", "monado"] = true ↔
        ∀ p ∈ run_outcomes demo_check demo_inst_fail 0 ["opentrack", "monado"],
          p.2 ≠ StepOutcome.failed)) ∧
      run_outcomes demo_check demo_inst_fail 0 ["opentrack", "monado"] =
        [("opentrack", StepOutcome.failed), ("monado", StepOutcome.succeeded)] ∧
      run_install_loop demo_check demo_inst_fail 0 true ["opentrack", "monado"] = false :=
  ⟨orchestrator_continues_and_aggregates demo_check demo_inst_fail ["opentrack", "monado"],
   by decide, by decide⟩

/-- C5: a plan element whose status check reports INSTALLED at the moment the
loop reaches it is recorded as skipped and its install is never invoked. -/
theorem installed_component_skipped (check : Nat → String → ComponentStatus)
    (inst : Nat → String → Option Bool) (plan : List String) (i : Nat)
    (h : i < plan.length)
    (hins : check i plan[i] = ComponentStatus.INSTALLED) :
    (run_outcomes check inst 0 plan)[i]? = some (plan[i], StepOutcome.skipped) ∧
      (i, plan[i]) ∉ run_calls check 0 plan := by
  constructor
  · rw [run_outcomes_get check inst plan 0 i h]
    have h0 : (0 : Nat) + i = i := by omega
    rw [h0]
    unfold install_step
    rw [if_pos hins]
  · have h2 := run_calls_skipped check plan 0 i h (by simpa using hins)
    simpa using h2

/-- Witness for C5 on the plan for monado, whose first element xrlinuxdriver
already reports INSTALLED. -/
theorem installed_component_skipped_witness :
    (0 < (["xrlinuxdriver", "monado"] : List String).length) ∧
      demo_check 0 "xrlinuxdriver" = ComponentStatus.INSTALLED ∧
      ((run_outcomes demo_check demo_inst 0 ["xrlinuxdriver", "monado"])[0]? =
          some ("xrlinuxdriver", StepOutcome.skipped) ∧
        (0, "xrlinuxdriver") ∉ run_calls demo_check 0 ["xrlinuxdriver", "monado"]) :=
  ⟨by decide, by decide,
   installed_component_skipped demo_check demo_inst ["xrlinuxdriver", "monado"] 0
     (by decide) (by decide)⟩

/-- C6 counterexample: XRLinuxDriverComponent.uninstall has no exception
handler, so a permission error raised by the removal of an existing artifact
propagates to the caller instead of becoming a boolean failure result. -/
theorem uninstall_error_propagates_counterexample :
    xrlinuxdriver_uninstall fs_denied = Except.error "PermissionError" := rfl

/-- C6 amended: XRLinuxDriverComponent.install converts every command failure
raised as subprocess.CalledProcessError into the boolean result False, so when
the underlying commands raise nothing else the operation always returns a
boolean rather than propagating an error. -/
theorem install_converts_command_failures (runner : String → Except RunErr Unit)
    (h : ∀ cmd msg, runner cmd ≠ Except.error (RunErr.otherErr msg)) :
    ∃ b, xrlinuxdriver_install runner = Except.ok b := by
  unfold xrlinuxdriver_install
  cases hr : xr_install_cmds.forM runner with
  | ok u => exact ⟨true, rfl⟩
  | error e =>
    cases e with
    | calledProcess m => exact ⟨false, rfl⟩
    | otherErr m =>
      rcases forM_error_mem hr with ⟨x, _, hfx⟩
      exact absurd hfx (h x m)

/-- Witness for the amended C6 with a runner on which every command succeeds. -/
theorem install_converts_command_failures_witness :
    (∀ cmd msg, runner_all_ok cmd ≠ Except.error (RunErr.otherErr msg)) ∧
      ∃ b, xrlinuxdriver_install runner_all_ok = Except.ok b :=
  ⟨fun _ _ hx => Except.noConfusion hx,
   install_converts_command_failures runner_all_ok (fun _ _ hx => Except.noConfusion hx)⟩

/-- C7: resolution never fails on unknown selection names (for every registry
and selection it produces a result), every name in the output is registered,
and the spec's concrete example holds: with A registered and dependency-free,
resolving the selection ghost, A yields exactly A; the analogous run over the
shipped registry drops ghost the same way. -/
theorem resolver_drops_unknown_names :
    (∀ (reg : List Component) (sel : List String),
        (resolveFuel reg (numNames reg + 1) sel).isSome = true) ∧
      (∀ (reg : List Component) (sel : List String) (n : String),
        n ∈ resolve_dependencies_in reg sel → (get_component_in reg n).isSome = true) ∧
      resolve_dependencies_in ghost_registry ["ghost", "A"] = ["A"] ∧
      resolve_dependencies ["ghost", "opentrack"] = ["opentrack"] := by
  refine ⟨?_, ?_, by decide, by decide⟩
  · intro reg sel
    exact (resolveFuel_adequate sel (numNames reg + 1) (numNames reg + 1)
      (Nat.lt_succ_self _) (Nat.lt_succ_self _)).2
  · intro reg sel n hn
    exact resolve_mem_registered hn

/-- Witness for C7 instantiating the universally quantified parts on the ghost
registry. -/
theorem resolver_drops_unknown_names_witness :
    (resolveFuel ghost_registry (numNames ghost_registry + 1) ["ghost", "A"]).isSome = true ∧
      resolve_dependencies_in ghost_registry ["ghost", "A"] = ["A"] :=
  ⟨resolver_drops_unknown_names.1 ghost_registry ["ghost", "A"],
   resolver_drops_unknown_names.2.2.1⟩

/-- C8: beyond the bound used by resolve_dependencies_in the computation is
fuel independent and always produces a result (the Python recursion
terminates, the visited guard preventing infinite descent on cyclic
registries), and every name appears at most once in the output, on every
registry including cyclic ones. -/
theorem resolver_terminates_on_cycles (reg : List Component) (sel : List String)
    (fuel : Nat) (hfuel : numNames reg < fuel) :
    resolveFuel reg fuel sel = resolveFuel reg (numNames reg + 1) sel ∧
      (resolveFuel reg fuel sel).isSome = true ∧
      ∀ a, (resolve_dependencies_in reg sel).count a ≤ 1 := by
  have h := resolveFuel_adequate sel fuel (numNames reg + 1) hfuel (Nat.lt_succ_self _)
  exact ⟨h.1, h.2, fun a => List.nodup_iff_count_le_one.mp (resolve_nodup reg sel) a⟩

/-- Witness for C8 on the registry with a self-dependency and a mutual cycle:
resolution terminates and each cyclic component appears exactly once. -/
theorem resolver_terminates_on_cycles_witness :
    numNames cyclic_registry < numNames cyclic_registry + 5 ∧
      (resolveFuel cyclic_registry (numNames cyclic_registry + 5) ["a", "b"] =
          resolveFuel cyclic_registry (numNames cyclic_registry + 1) ["a", "b"] ∧
        (resolveFuel cyclic_registry (numNames cyclic_registry + 5) ["a", "b"]).isSome = true ∧
        ∀ a, (resolve_dependencies_in cyclic_registry ["a", "b"]).count a ≤ 1) ∧
      resolve_dependencies_in cyclic_registry ["a", "b"] = ["a", "c", "b"] ∧
      (resolve_dependencies_in cyclic_registry ["a", "b"]).count "a" = 1 ∧
      (resolve_dependencies_in cyclic_registry ["a", "b"]).count "b" = 1 ∧
      (resolve_dependencies_in cyclic_registry ["a", "b"]).count "c" = 1 :=
  ⟨by decide,
   resolver_terminates_on_cycles cyclic_registry ["a", "b"]
     (numNames cyclic_registry + 5) (by decide),
   by decide, by decide, by decide, by decide⟩

/-- C9: on a well-formed acyclic registry the resolver is idempotent: feeding
its output back in as the selection reproduces that output. -/
theorem resolver_idempotent (reg : List Component) (sel : List String)
    (hwf : WfRegistry reg) (hacy : AcyclicRegistry reg) :
    resolve_dependencies_in reg (resolve_dependencies_in reg sel) =
      resolve_dependencies_in reg sel :=
  resolve_idempotent hwf hacy sel

/-- Witness for C9 at the shipped registry and a concrete selection. -/
theorem resolver_idempotent_witness :
    WfRegistry ALL_COMPONENTS ∧ AcyclicRegistry ALL_COMPONENTS ∧
      resolve_dependencies (resolve_dependencies ["vrto3d", "opentrack"]) =
        resolve_dependencies ["vrto3d", "opentrack"] :=
  ⟨wf_ALL, acy_ALL,
   resolver_idempotent ALL_COMPONENTS ["vrto3d", "opentrack"] wf_ALL acy_ALL⟩

/-- C10: every name in the list returned by resolve_dependencies is the name
of a registered component, so get_component succeeds on every element of the
plan during printing and execution. -/
theorem plan_names_always_registered (sel : List String) (n : String)
    (hn : n ∈ resolve_dependencies sel) : (get_component n).isSome = true :=
  resolve_mem_registered hn

/-- Witness for C10 on the plan resolved from stardust-xr. -/
theorem plan_names_always_registered_witness :
    "monado" ∈ resolve_dependencies ["stardust-xr"] ∧
      (get_component "monado").isSome = true :=
  ⟨by decide, plan_names_always_registered ["stardust-xr"] "monado" (by decide)⟩

end VRStack
